import Mathlib

set_option maxRecDepth 4096

/-!
Verification of the TCP string-lookup service (`search.py`, `search_engine.py`,
`server.py`) against its natural-language specification.

Modelling conventions:
* File contents and queries are modelled as `List Char`, one entry per Unicode
  scalar value.  The Python code reads the data file as UTF-8 text with
  `newline=""` (universal newlines, terminators untranslated) and the mmap
  matcher works on the UTF-8 bytes; since `\n`/`\r` are single bytes that never
  occur inside a multi-byte UTF-8 sequence, line-bounded byte positions
  coincide with scalar positions, so the scalar-level model is faithful.
* The server layer works on raw bytes, modelled as `List Nat`; the UTF-8
  decode with replacement applied to a query before matching is modelled as
  the identity on the byte content (all inputs used in the theorems are ASCII).
* Python loops that are not structurally recursive (`mmap` scanning,
  `bisect_left`) are given an explicit fuel argument; the top-level entry
  points pass fuel that provably dominates the number of iterations of the
  Python loop, and the characterisation lemmas prove the results independent
  of any larger fuel.
* Exceptions are modelled with `Except`; a raised exception propagates with
  the mutable state unchanged, matching Python's evaluation order (the
  right-hand side of an assignment raises before the assignment happens).
-/

/-! ## Text model: Python universal-newline line splitting

With `open(..., newline="")` Python iterates lines splitting on `\n`, `\r\n`
and lone `\r`, keeping the terminator on each yielded line.  All callers in
`search.py` immediately apply `line.rstrip("\r\n")`, which removes exactly the
terminator (line bodies cannot contain `\r` or `\n`).  `splitLinesUniv`
therefore directly produces the terminator-stripped line bodies. -/

/-- Does the character list avoid both line-terminator characters? -/
def noTerm (l : List Char) : Bool :=
  l.all (fun c => !(c == '\n' || c == '\r'))

/-- Prepend a character to the first line of a line list (used for building
the line split right-to-left). -/
def consFirst (c : Char) : List (List Char) → List (List Char)
  | [] => [[c]]
  | l :: ls => (c :: l) :: ls

/-- Terminator-stripped lines of a file in Python universal-newline mode:
split on `\n`, `\r\n` and lone `\r`; a final unterminated segment is a line;
an empty file has no lines. -/
def splitLinesUniv : List Char → List (List Char)
  | [] => []
  | '\n' :: rest => [] :: splitLinesUniv rest
  | '\r' :: '\n' :: rest => [] :: splitLinesUniv rest
  | '\r' :: rest => [] :: splitLinesUniv rest
  | c :: rest => consFirst c (splitLinesUniv rest)

/-! ## search.py: the five matchers -/

/-- Embedding of `search.search_linear_scan` (search.py:29-59): stream the
file's lines and compare each terminator-stripped line to the query. -/
def search_linear_scan (content : List Char) (query : List Char) : Bool :=
  (splitLinesUniv content).any (fun line => line == query)

/-- Embedding of `search.build_set_cache` (search.py:62-90): the set of all
terminator-stripped lines, modelled as a duplicate-free list built by
insertion order. -/
def build_set_cache (content : List Char) : List (List Char) :=
  (splitLinesUniv content).foldl
    (fun acc line => if line ∈ acc then acc else acc ++ [line]) []

/-- Embedding of `search.search_set_cache` (search.py:93-103): membership in
the pre-built set. -/
def search_set_cache (cache : List (List Char)) (query : List Char) : Bool :=
  cache.contains query

/-- Python string comparison: lexicographic on Unicode scalar values. -/
def strLt : List Char → List Char → Bool
  | [], [] => false
  | [], _ :: _ => true
  | _ :: _, [] => false
  | a :: as_, b :: bs => if a < b then true else if b < a then false else strLt as_ bs

/-- Embedding of `search.build_sorted_list` (search.py:106-135): all
terminator-stripped lines, sorted ascending by Python string comparison
(duplicates retained). -/
def build_sorted_list (content : List Char) : List (List Char) :=
  (splitLinesUniv content).mergeSort (fun a b => !strLt b a)

/-- Embedding of `bisect.bisect_left` as used by `search_sorted_bisect`:
binary search for the lower-bound insertion point of `x`.  The fuel argument
dominates the iteration count of the Python `while lo < hi` loop (the
interval shrinks by at least one per iteration). -/
def bisect_left (a : List (List Char)) (x : List Char) : Nat → Nat → Nat → Nat
  | 0, lo, _ => lo
  | fuel + 1, lo, hi =>
    if lo < hi then
      if strLt (a.getD ((lo + hi) / 2) []) x then
        bisect_left a x fuel ((lo + hi) / 2 + 1) hi
      else
        bisect_left a x fuel lo ((lo + hi) / 2)
    else lo

/-- Embedding of `search.search_sorted_bisect` (search.py:138-150):
`bisect_left` then confirm equality at the found index. -/
def search_sorted_bisect (sorted_lines : List (List Char)) (query : List Char) : Bool :=
  let idx := bisect_left sorted_lines query (sorted_lines.length + 1) 0 sorted_lines.length
  idx < sorted_lines.length && sorted_lines.getD idx [] == query

/-- Does `q` occur in `c` starting at position `p`?  Mirrors a successful
`mm.find` probe at offset `p`. -/
def occursAtB (c q : List Char) (p : Nat) : Bool :=
  q.isPrefixOf (c.drop p)

/-- Boundary check before a match (search.py:193): the match starts at
offset 0 or the byte immediately before is a newline. -/
def beforeOk (c : List Char) (p : Nat) : Bool :=
  p == 0 || c.get? (p - 1) == some '\n'

/-- Boundary check after a match (search.py:195-211): the match ends at
end-of-file, or is followed by `\n`, or by `\r` that is itself followed by
`\n` or end-of-file. -/
def afterOk (c q : List Char) (p : Nat) : Bool :=
  if p + q.length == c.length then true
  else if c.get? (p + q.length) == some '\n' then true
  else if c.get? (p + q.length) == some '\r' then
    p + q.length + 1 == c.length || c.get? (p + q.length + 1) == some '\n'
  else false

/-- Embedding of `mm.find(q, start)`: the least position `p ≥ start` at which
`q` occurs, or `none`.  Fuel `c.length + 1` always suffices. -/
def findFrom (c q : List Char) : Nat → Nat → Option Nat
  | 0, _ => none
  | fuel + 1, start =>
    if start + q.length ≤ c.length then
      if occursAtB c q start then some start
      else findFrom c q fuel (start + 1)
    else none

/-- Embedding of the `while True` scan loop of `search_mmap_scan`
(search.py:188-216): find the next occurrence, accept it if line-bounded,
otherwise continue just past it. -/
def mmapLoop (c q : List Char) : Nat → Nat → Bool
  | 0, _ => false
  | fuel + 1, start =>
    match findFrom c q (c.length + 1) start with
    | none => false
    | some pos =>
      if beforeOk c pos && afterOk c q pos then true
      else mmapLoop c q fuel (pos + 1)

/-- Embedding of `search.search_mmap_scan` (search.py:153-223): an empty
query returns false; an empty file (mmap of size 0 raises `ValueError`)
returns false; otherwise scan for a line-bounded occurrence. -/
def search_mmap_scan (content : List Char) (query : List Char) : Bool :=
  if query.isEmpty then false
  else if content.isEmpty then false
  else mmapLoop content query (content.length + 1) 0

/-- Modelled from the spec: `search.search_grep_fx` (search.py:226-255)
invokes the external `grep -F -x` collaborator, which is not part of this
repository; per the spec it is a fixed-string whole-line matcher against the
reference file's lines ("match found" exit status means true). -/
def search_grep_fx (content : List Char) (query : List Char) : Bool :=
  (splitLinesUniv content).any (fun line => line == query)

/-! ## search_engine.py: the SearchEngine

The filesystem is modelled by passing, at each call that reads the data
file, the outcome of that read: `Except String (List Char)` is either the
current file contents or the message of the `SearchError` the read raises
(missing file, I/O error, unavailable external tool). -/

/-- Outcome of reading the reference file at some instant. -/
abbrev Disk := Except String (List Char)

/-- Embedding of `search_engine.EngineError`.  The constructors keep the
distinct messages raised by the code apart: the first two are the
configuration-compatibility failures (the spec's ConfigurationError), the
third wraps an underlying `SearchError`, and the fourth models a failed
`assert isinstance` in `exists`. -/
inductive EngineError where
  | unsupportedAlgo (algo : String)
  | incompatible (algo : String)
  | searchFailed (msg : String)
  | assertionFailed
deriving DecidableEq, Repr

/-- Is this one of the two construction/compatibility failures that the
spec's taxonomy calls ConfigurationError? -/
def EngineError.isConfigError : EngineError → Bool
  | .unsupportedAlgo _ => true
  | .incompatible _ => true
  | _ => false

/-- Rendering of an EngineError used by `main`'s SystemExit message. -/
def EngineError.message : EngineError → String
  | .unsupportedAlgo a => "Unsupported search_algo=" ++ a
  | .incompatible a => "search_algo=" ++ a ++ " is not compatible with reread_on_query=True"
  | .searchFailed m => m
  | .assertionFailed => "AssertionError"

/-- Embedding of `search_engine.CACHED_ALGOS` (search_engine.py:38). -/
def CACHED_ALGOS : List String := ["set_cache", "sorted_bisect"]

/-- Embedding of `search_engine.REREAD_ALGOS` (search_engine.py:39). -/
def REREAD_ALGOS : List String := ["linear_scan", "mmap_scan", "grep_fx"]

/-- Embedding of `search_engine.ALL_ALGOS` (search_engine.py:40). -/
def ALL_ALGOS : List String := CACHED_ALGOS ++ REREAD_ALGOS

/-- Embedding of `search_engine.CacheType`: a set of lines or a sorted list
of lines. -/
inductive CacheType where
  | setC (s : List (List Char))
  | listC (l : List (List Char))
deriving DecidableEq, Repr

/-- Embedding of the `search_engine.SearchEngine` dataclass.  The file path
is not stored: every operation that reads the file takes the read outcome as
an explicit `Disk` argument. -/
structure SearchEngine where
  reread_on_query : Bool
  search_algo : String
  cache : Option CacheType := none
deriving DecidableEq, Repr

/-- Embedding of `SearchEngine._validate_compatibility`
(search_engine.py:85-99). -/
def validateCompatibility (e : SearchEngine) : Except EngineError Unit :=
  if !(ALL_ALGOS.contains e.search_algo) then .error (.unsupportedAlgo e.search_algo)
  else if e.reread_on_query && CACHED_ALGOS.contains e.search_algo then
    .error (.incompatible e.search_algo)
  else .ok ()

/-- Embedding of `SearchEngine.warmup` (search_engine.py:101-129), as a
state transformer: the returned engine is the mutated `self`.  A raised
exception leaves `self` unchanged, since in the source the failing
`build_*` call is evaluated before the assignment to `self._cache`. -/
def warmupSt (e : SearchEngine) (disk : Disk) : Except EngineError Unit × SearchEngine :=
  match validateCompatibility e with
  | .error er => (.error er, e)
  | .ok _ =>
    if e.reread_on_query then (.ok (), { e with cache := none })
    else if e.search_algo = "set_cache" then
      match disk with
      | .ok c => (.ok (), { e with cache := some (.setC (build_set_cache c)) })
      | .error msg => (.error (.searchFailed msg), e)
    else if e.search_algo = "sorted_bisect" then
      match disk with
      | .ok c => (.ok (), { e with cache := some (.listC (build_sorted_list c)) })
      | .error msg => (.error (.searchFailed msg), e)
    else (.ok (), { e with cache := none })

/-- Run a disk-reading matcher, wrapping a `SearchError` as `EngineError`
(the `except SearchError ... raise EngineError` blocks of `exists`). -/
def runMatcher (m : List Char → List Char → Bool) (disk : Disk) (q : List Char) :
    Except EngineError Bool :=
  match disk with
  | .ok c => .ok (m c q)
  | .error msg => .error (.searchFailed msg)

/-- Embedding of the cached-algorithm dispatch at the end of
`SearchEngine.exists` (search_engine.py:177-185), including the
`assert isinstance` checks. -/
def dispatchCached (e : SearchEngine) (q : List Char) : Except EngineError Bool :=
  if e.search_algo = "set_cache" then
    match e.cache with
    | some (.setC s) => .ok (search_set_cache s q)
    | _ => .error .assertionFailed
  else if e.search_algo = "sorted_bisect" then
    match e.cache with
    | some (.listC l) => .ok (search_sorted_bisect l q)
    | _ => .error .assertionFailed
  else .error (.unsupportedAlgo e.search_algo)

/-- Embedding of `SearchEngine.exists` (search_engine.py:131-185), as a
state transformer.  `disk` is the outcome the reference file read would have
at this instant; cached algorithms with a warm cache never consult it. -/
def existsSt (e : SearchEngine) (disk : Disk) (q : List Char) :
    Except EngineError Bool × SearchEngine :=
  match validateCompatibility e with
  | .error er => (.error er, e)
  | .ok _ =>
    if e.reread_on_query then
      if e.search_algo = "linear_scan" then (runMatcher search_linear_scan disk q, e)
      else if e.search_algo = "mmap_scan" then (runMatcher search_mmap_scan disk q, e)
      else if e.search_algo = "grep_fx" then (runMatcher search_grep_fx disk q, e)
      else (.error (.unsupportedAlgo e.search_algo), e)
    else
      if e.search_algo = "linear_scan" then (runMatcher search_linear_scan disk q, e)
      else if e.search_algo = "mmap_scan" || e.search_algo = "grep_fx" then
        (runMatcher (if e.search_algo = "mmap_scan" then search_mmap_scan else search_grep_fx)
          disk q, e)
      else
        match e.cache with
        | none =>
          match warmupSt e disk with
          | (.error er, e') => (.error er, e')
          | (.ok _, e') => (dispatchCached e' q, e')
        | some _ => (dispatchCached e q, e)

/-- The two fields of `config.AppConfig` that `SearchEngine.from_config`
consumes (config.py:26-53). -/
structure AppConfig where
  reread_on_query : Bool
  search_algo : String
deriving DecidableEq, Repr

/-- Embedding of `SearchEngine.from_config` (search_engine.py:67-83):
construct the engine from the configuration, then validate. -/
def fromConfig (cfg : AppConfig) : Except EngineError SearchEngine :=
  match validateCompatibility ⟨cfg.reread_on_query, cfg.search_algo, none⟩ with
  | .error er => .error er
  | .ok _ => .ok ⟨cfg.reread_on_query, cfg.search_algo, none⟩

/-- Embedding of the startup warmup in `server.main` (server.py:283-287):
when reread mode is off, warm the engine up and convert an `EngineError`
into a `SystemExit` with a message (a non-zero process exit). -/
def startupWarmup (e : SearchEngine) (disk : Disk) : Except String SearchEngine :=
  if !e.reread_on_query then
    match warmupSt e disk with
    | (.ok _, e') => .ok e'
    | (.error er, _) => .error ("Engine error: " ++ er.message)
  else .ok e

/-! ## server.py: the per-connection session loop -/

/-- Embedding of `server.MAX_PAYLOAD_BYTES` (server.py:30). -/
def MAX_PAYLOAD_BYTES : Nat := 1024

/-- Embedding of `bytes.rstrip(b)` for a single byte value: remove the
maximal trailing run of `b`. -/
def rstripByte (b : Nat) : List Nat → List Nat
  | [] => []
  | x :: xs =>
    let r := rstripByte b xs
    if r = [] ∧ x = b then [] else x :: r

/-- Embedding of the query trimming in `_handle_client` (server.py:183):
`raw_line.rstrip(b"\r").rstrip(b"\x00")`. -/
def trimLine (raw : List Nat) : List Nat :=
  rstripByte 0 (rstripByte 13 raw)

/-- Prepend a non-newline byte to the first complete line if one exists,
otherwise to the retained partial line. -/
def consByte (b : Nat) : List (List Nat) × List Nat → List (List Nat) × List Nat
  | ([], rem) => ([], b :: rem)
  | (l :: ls, rem) => ((b :: l) :: ls, rem)

/-- Embedding of the buffer split loop (server.py:179-180) applied to a whole
received byte stream: the complete newline-terminated lines (without their
`\n`) in order, and the retained trailing partial line. -/
def extractLines : List Nat → List (List Nat) × List Nat
  | [] => ([], [])
  | b :: rest =>
    if b = 10 then ([] :: (extractLines rest).1, (extractLines rest).2)
    else consByte b (extractLines rest)

/-- One per-query outcome of the session loop: either the over-long-line
rejection (server.py:185-194) or a normal answer carrying the trimmed query
and the engine verdict (server.py:196-215). -/
inductive Response where
  | tooLong
  | answer (query : List Nat) (found : Bool)
deriving DecidableEq, Repr

/-- Embedding of `server.RESPONSE_EXISTS` (server.py:31), without the
trailing newline. -/
def RESPONSE_EXISTS : String := "STRING EXISTS"

/-- Embedding of `server.RESPONSE_NOT_FOUND` (server.py:32), without the
trailing newline. -/
def RESPONSE_NOT_FOUND : String := "STRING NOT FOUND"

/-- Verdict line sent for a response (second line of each two-line reply). -/
def verdictOf : Response → String
  | .tooLong => RESPONSE_NOT_FOUND
  | .answer _ found => if found then RESPONSE_EXISTS else RESPONSE_NOT_FOUND

/-- Result of `self._engine.exists(query)` as observed by the session loop:
either a boolean or a raised `EngineError`.  The engine is abstracted as a
state-threaded oracle so the theorems quantify over every engine behaviour. -/
def resolveFound : Except EngineError Bool → Bool
  | .ok b => b
  | .error _ => false

/-- Embedding of the per-line part of `_handle_client` (server.py:179-215)
over the sequence of complete lines: trim, enforce the length cap, query the
engine (an `EngineError` is treated as not found, server.py:199-202), and
continue with the next line. -/
def processLines {σ : Type} (step : σ → List Nat → Except EngineError Bool × σ) :
    σ → List (List Nat) → List Response × σ
  | s, [] => ([], s)
  | s, raw :: rest =>
    if (trimLine raw).length > MAX_PAYLOAD_BYTES then
      (Response.tooLong :: (processLines step s rest).1, (processLines step s rest).2)
    else
      (Response.answer (trimLine raw) (resolveFound (step s (trimLine raw)).1) ::
        (processLines step (step s (trimLine raw)).2 rest).1,
       (processLines step (step s (trimLine raw)).2 rest).2)

/-- Whole-session view: split the received byte stream into complete lines,
process each, and retain the trailing partial line. -/
def sessionRun {σ : Type} (step : σ → List Nat → Except EngineError Bool × σ)
    (s : σ) (received : List Nat) : List Response × List Nat × σ :=
  ((processLines step s (extractLines received).1).1,
   (extractLines received).2,
   (processLines step s (extractLines received).1).2)

/-! ## Lemmas about the line split -/

theorem noTerm_iff {l : List Char} :
    noTerm l = true ↔ ∀ c ∈ l, c ≠ '\n' ∧ c ≠ '\r' := by
  simp [noTerm, List.all_eq_true, not_or]

theorem splitLinesUniv_append_lf {l : List Char} (h : noTerm l = true) (rest : List Char) :
    splitLinesUniv (l ++ '\n' :: rest) = l :: splitLinesUniv rest := by
  induction l with
  | nil => rfl
  | cons c l ih =>
    rw [noTerm_iff] at h
    obtain ⟨h1, h2⟩ := h c (by simp)
    have hn : noTerm l = true := noTerm_iff.mpr fun d hd => h d (by simp [hd])
    simp only [List.cons_append, splitLinesUniv, h1, h2, if_false]
    simp [splitLinesUniv, h1, h2, ih hn, consFirst]

theorem splitLinesUniv_append_crlf {l : List Char} (h : noTerm l = true) (rest : List Char) :
    splitLinesUniv (l ++ '\r' :: '\n' :: rest) = l :: splitLinesUniv rest := by
  induction l with
  | nil => rfl
  | cons c l ih =>
    rw [noTerm_iff] at h
    obtain ⟨h1, h2⟩ := h c (by simp)
    have hn : noTerm l = true := noTerm_iff.mpr fun d hd => h d (by simp [hd])
    simp [splitLinesUniv, h1, h2, ih hn, consFirst]

theorem splitLinesUniv_noTerm {l : List Char} (h : noTerm l = true) (hne : l ≠ []) :
    splitLinesUniv l = [l] := by
  induction l with
  | nil => exact absurd rfl hne
  | cons c l ih =>
    rw [noTerm_iff] at h
    obtain ⟨h1, h2⟩ := h c (by simp)
    have hn : noTerm l = true := noTerm_iff.mpr fun d hd => h d (by simp [hd])
    rcases eq_or_ne l [] with hl | hl
    · subst hl; simp [splitLinesUniv, h1, h2, consFirst]
    · simp [splitLinesUniv, h1, h2, ih hn hl, consFirst]

/-- Shape of a reference file whose line terminators are `\n` or `\r\n`
(no bare `\r`), related to its terminator-stripped lines: the constructors
build the file line by line, the last line optionally unterminated. -/
inductive FileOf : List (List Char) → List Char → Prop
  | nil : FileOf [] []
  | last (l : List Char) : noTerm l = true → l ≠ [] → FileOf [l] l
  | lf (l : List Char) (ls : List (List Char)) (rest : List Char) :
      noTerm l = true → FileOf ls rest → FileOf (l :: ls) (l ++ '\n' :: rest)
  | crlf (l : List Char) (ls : List (List Char)) (rest : List Char) :
      noTerm l = true → FileOf ls rest → FileOf (l :: ls) (l ++ '\r' :: '\n' :: rest)

theorem FileOf.splitLines {ls : List (List Char)} {c : List Char} (h : FileOf ls c) :
    splitLinesUniv c = ls := by
  induction h with
  | nil => rfl
  | last l h1 h2 => exact splitLinesUniv_noTerm h1 h2
  | lf l ls rest h1 _ ih => rw [splitLinesUniv_append_lf h1, ih]
  | crlf l ls rest h1 _ ih => rw [splitLinesUniv_append_crlf h1, ih]

theorem getLast?_mem_of_eq_some {l : List Char} {a : Char} (h : l.getLast? = some a) :
    a ∈ l := by
  induction l with
  | nil => simp at h
  | cons c l ih =>
    rcases eq_or_ne l [] with hl | hl
    · subst hl; simp_all
    · rw [List.getLast?_cons] at h
      rcases hg : l.getLast? with _ | b
      · simp [List.getLast?_eq_none_iff] at hg; exact absurd hg hl
      · right; exact ih (by rw [hg]; simpa [hg] using h)

theorem noTerm_getLast_ne {l : List Char} (h : noTerm l = true) :
    l.getLast? ≠ some '\n' := by
  intro hc
  exact ((noTerm_iff.mp h) _ (getLast?_mem_of_eq_some hc)).1 rfl

theorem FileOf.append_line {ls : List (List Char)} {c : List Char}
    (h : FileOf ls c) (hend : c = [] ∨ c.getLast? = some '\n')
    {q : List Char} (hq : noTerm q = true) :
    FileOf (ls ++ [q]) (c ++ q ++ ['\n']) := by
  induction h with
  | nil =>
    simpa using FileOf.lf q [] [] hq FileOf.nil
  | last l h1 h2 =>
    rcases hend with hc | hc
    · exact absurd hc h2
    · exact absurd hc (noTerm_getLast_ne h1)
  | lf l ls rest h1 hf ih =>
    have hrest : rest = [] ∨ rest.getLast? = some '\n' := by
      rcases eq_or_ne rest [] with hr | hr
      · exact Or.inl hr
      · right
        rcases hend with hc | hc
        · simp at hc
        · rcases hg : rest.getLast? with _ | b
          · exact absurd (List.getLast?_eq_none_iff.mp hg) hr
          · rw [List.getLast?_append, List.getLast?_cons, hg] at hc
            simpa using hc
    have := ih hrest
    have goal : FileOf ((l :: ls) ++ [q]) (l ++ '\n' :: (rest ++ q ++ ['\n'])) :=
      FileOf.lf l (ls ++ [q]) (rest ++ q ++ ['\n']) h1 this
    simpa [List.append_assoc] using goal
  | crlf l ls rest h1 hf ih =>
    have hrest : rest = [] ∨ rest.getLast? = some '\n' := by
      rcases eq_or_ne rest [] with hr | hr
      · exact Or.inl hr
      · right
        rcases hend with hc | hc
        · simp at hc
        · rcases hg : rest.getLast? with _ | b
          · exact absurd (List.getLast?_eq_none_iff.mp hg) hr
          · rw [List.getLast?_append, List.getLast?_cons, List.getLast?_cons, hg] at hc
            simpa using hc
    have := ih hrest
    have goal : FileOf ((l :: ls) ++ [q]) (l ++ '\r' :: '\n' :: (rest ++ q ++ ['\n'])) :=
      FileOf.crlf l (ls ++ [q]) (rest ++ q ++ ['\n']) h1 this
    simpa [List.append_assoc] using goal

/-! ## Lemmas about Python string comparison and bisect -/

theorem strLt_irrefl : ∀ a : List Char, strLt a a = false
  | [] => rfl
  | c :: as_ => by simp [strLt, lt_irrefl, strLt_irrefl as_]

theorem strLt_trans : ∀ a b c : List Char,
    strLt a b = true → strLt b c = true → strLt a c = true
  | [], [], _, h1, _ => by simp [strLt] at h1
  | [], _ :: _, [], _, h2 => by simp [strLt] at h2
  | [], _ :: _, _ :: _, _, _ => rfl
  | _ :: _, [], _, h1, _ => by simp [strLt] at h1
  | _ :: _, _ :: _, [], _, h2 => by simp [strLt] at h2
  | x :: as_, y :: bs, z :: cs, h1, h2 => by
    simp only [strLt] at h1 h2 ⊢
    rcases lt_trichotomy x y with hxy | hxy | hxy
    · rcases lt_trichotomy y z with hyz | hyz | hyz
      · simp [lt_trans hxy hyz]
      · subst hyz; simp [hxy]
      · rw [if_neg (lt_asymm hyz), if_pos hyz] at h2; cases h2
    · subst hxy
      rcases lt_trichotomy x z with hxz | hxz | hxz
      · simp [hxz]
      · subst hxz
        rw [if_neg (lt_irrefl x), if_neg (lt_irrefl x)] at h1 h2 ⊢
        exact strLt_trans as_ bs cs h1 h2
      · rw [if_neg (lt_asymm hxz), if_pos hxz] at h2; cases h2
    · rw [if_neg (lt_asymm hxy), if_pos hxy] at h1; cases h1

theorem strLt_conn : ∀ a b : List Char,
    strLt a b = false → strLt b a = false → a = b
  | [], [], _, _ => rfl
  | [], _ :: _, h1, _ => by simp [strLt] at h1
  | _ :: _, [], _, h2 => by simp [strLt] at h2
  | x :: as_, y :: bs, h1, h2 => by
    simp only [strLt] at h1 h2
    rcases lt_trichotomy x y with hxy | hxy | hxy
    · simp [hxy] at h1
    · subst hxy
      simp only [lt_irrefl, if_false] at h1 h2
      rw [strLt_conn as_ bs h1 h2]
    · simp [hxy] at h2

theorem strLt_asymm {a b : List Char} (h : strLt a b = true) : strLt b a = false := by
  cases hba : strLt b a
  · rfl
  · have := strLt_trans a b a h hba
    rw [strLt_irrefl] at this
    cases this

theorem strLt_lt_of_le_of_lt {a b c : List Char}
    (hle : strLt b a = false) (hlt : strLt b c = true) : strLt a c = true := by
  cases hab : strLt a b
  · rw [strLt_conn b a hle hab] at hlt
    exact hlt
  · exact strLt_trans a b c hab hlt

theorem sorted_build_sorted_list (c : List Char) :
    List.Pairwise (fun a b => strLt b a = false) (build_sorted_list c) := by
  have h := @List.sorted_mergeSort (List Char) (fun a b => !strLt b a)
    (fun a b c hab hbc => by
      simp only [Bool.not_eq_true'] at hab hbc ⊢
      cases hca : strLt c a
      · rfl
      · rcases hsb : strLt a b with _ | _
        · rw [strLt_conn b a hab hsb] at hbc
          rw [hbc] at hca
          cases hca
        · have := strLt_trans c a b hca hsb
          rw [this] at hbc
          cases hbc)
    (fun a b => by
      cases hab : strLt a b
      · simp [hab]
      · simp [strLt_asymm hab])
    (splitLinesUniv c)
  unfold build_sorted_list
  exact h.imp (by simp)

theorem mem_build_sorted_list {c : List Char} {q : List Char} :
    q ∈ build_sorted_list c ↔ q ∈ splitLinesUniv c := by
  unfold build_sorted_list
  exact List.mem_mergeSort

theorem bisect_left_spec (a : List (List Char)) (x : List Char) :
    ∀ (fuel lo hi : Nat),
    List.Pairwise (fun u v => strLt v u = false) a →
    hi ≤ a.length → lo ≤ hi → hi - lo ≤ fuel →
    lo ≤ bisect_left a x fuel lo hi ∧ bisect_left a x fuel lo hi ≤ hi ∧
      (∀ k, lo ≤ k → k < bisect_left a x fuel lo hi → strLt (a.getD k []) x = true) ∧
      (∀ k, bisect_left a x fuel lo hi ≤ k → k < hi → strLt (a.getD k []) x = false) := by
  intro fuel
  induction fuel with
  | zero =>
    intro lo hi _ _ hlohi hfuel
    have : hi = lo := by omega
    subst this
    simp only [bisect_left]
    exact ⟨le_refl _, le_refl _, fun k h1 h2 => by omega, fun k h1 h2 => by omega⟩
  | succ fuel ih =>
    intro lo hi hs hhi hlohi hfuel
    by_cases hlt : lo < hi
    · have hmid1 : lo ≤ (lo + hi) / 2 := by omega
      have hmid2 : (lo + hi) / 2 < hi := by omega
      have hsorted_le : ∀ i j, i ≤ j → j < a.length → strLt (a.getD j []) (a.getD i []) = false := by
        intro i j hij hj
        rcases eq_or_lt_of_le hij with h | h
        · subst h; exact strLt_irrefl _
        · have hi' : i < a.length := lt_trans h hj
          rw [List.getD_eq_getElem a [] hj, List.getD_eq_getElem a [] hi']
          exact List.pairwise_iff_getElem.mp hs i j hi' hj h
      by_cases hmid : strLt (a.getD ((lo + hi) / 2) []) x = true
      · have hrec := ih ((lo + hi) / 2 + 1) hi hs hhi (by omega) (by omega)
        have heq : bisect_left a x (fuel + 1) lo hi =
            bisect_left a x fuel ((lo + hi) / 2 + 1) hi := by
          rw [bisect_left, if_pos hlt, if_pos hmid]
        rw [heq]
        refine ⟨by omega, hrec.2.1, ?_, hrec.2.2.2⟩
        intro k hk1 hk2
        by_cases hkm : k ≤ (lo + hi) / 2
        · exact strLt_lt_of_le_of_lt (hsorted_le k ((lo + hi) / 2) hkm (by omega)) hmid
        · exact hrec.2.2.1 k (by omega) hk2
      · have hrec := ih lo ((lo + hi) / 2) hs (by omega) (by omega) (by omega)
        have heq : bisect_left a x (fuel + 1) lo hi =
            bisect_left a x fuel lo ((lo + hi) / 2) := by
          rw [bisect_left, if_pos hlt, if_neg hmid]
        rw [heq]
        refine ⟨hrec.1, by omega, hrec.2.2.1, ?_⟩
        intro k hk1 hk2
        by_cases hkm : k < (lo + hi) / 2
        · exact hrec.2.2.2 k hk1 hkm
        · cases hkx : strLt (a.getD k []) x
          · rfl
          · have hle : strLt (a.getD k []) (a.getD ((lo + hi) / 2) []) = false :=
              hsorted_le ((lo + hi) / 2) k (by omega) (by omega)
            have := strLt_lt_of_le_of_lt hle hkx
            rw [this] at hmid
            cases hmid rfl
    · have : hi = lo := by omega
      subst this
      simp only [bisect_left, if_neg hlt]
      exact ⟨le_refl _, le_refl _, fun k h1 h2 => by omega, fun k h1 h2 => by omega⟩

theorem search_sorted_bisect_mem {l : List (List Char)} {q : List Char}
    (hs : List.Pairwise (fun u v => strLt v u = false) l) :
    search_sorted_bisect l q = true ↔ q ∈ l := by
  have hspec := bisect_left_spec l q (l.length + 1) 0 l.length hs (le_refl _)
    (Nat.zero_le _) (by omega)
  set r := bisect_left l q (l.length + 1) 0 l.length with hr
  constructor
  · intro h
    simp only [search_sorted_bisect, ← hr, Bool.and_eq_true, decide_eq_true_eq,
      beq_iff_eq] at h
    obtain ⟨h1, h2⟩ := h
    rw [List.getD_eq_getElem l [] h1] at h2
    rw [← h2]
    exact List.getElem_mem h1
  · intro h
    obtain ⟨j, hj, hjq⟩ := List.mem_iff_getElem.mp h
    have hjr : r ≤ j := by
      by_contra hc
      push_neg at hc
      have := hspec.2.2.1 j (Nat.zero_le _) hc
      rw [List.getD_eq_getElem l [] hj, hjq, strLt_irrefl] at this
      cases this
    have hrlen : r < l.length := lt_of_le_of_lt hjr hj
    have hnotlt : strLt (l.getD r []) q = false := hspec.2.2.2 r (le_refl _) hrlen
    have hge : strLt q (l.getD r []) = false := by
      rcases eq_or_lt_of_le hjr with h' | h'
      · rw [List.getD_eq_getElem l [] hrlen]
        simp only [h']
        rw [hjq, strLt_irrefl]
      · rw [List.getD_eq_getElem l [] hrlen, ← hjq]
        exact List.pairwise_iff_getElem.mp hs r j hrlen hj h'
    have := strLt_conn _ _ hnotlt hge
    simp only [search_sorted_bisect, ← hr, Bool.and_eq_true, decide_eq_true_eq, beq_iff_eq]
    exact ⟨hrlen, this⟩

/-! ## Lemmas about the set cache -/

theorem mem_build_set_fold (ls : List (List Char)) :
    ∀ (acc : List (List Char)) (q : List Char),
      q ∈ ls.foldl (fun acc line => if line ∈ acc then acc else acc ++ [line]) acc ↔
        q ∈ acc ∨ q ∈ ls := by
  induction ls with
  | nil => simp
  | cons l ls ih =>
    intro acc q
    simp only [List.foldl_cons, ih, List.mem_cons]
    by_cases hl : l ∈ acc
    · rw [if_pos hl]
      constructor
      · rintro (h | h)
        · exact Or.inl h
        · exact Or.inr (Or.inr h)
      · rintro (h | h | h)
        · exact Or.inl h
        · exact Or.inl (h ▸ hl)
        · exact Or.inr h
    · rw [if_neg hl]
      simp only [List.mem_append, List.mem_singleton]
      tauto

theorem mem_build_set_cache {c : List Char} {q : List Char} :
    q ∈ build_set_cache c ↔ q ∈ splitLinesUniv c := by
  unfold build_set_cache
  rw [mem_build_set_fold]
  simp

/-! ## Characterisation of the mmap scan -/

theorem occursAtB_iff {c q : List Char} {p : Nat} :
    occursAtB c q p = true ↔ q <+: c.drop p := by
  simp [occursAtB, List.isPrefixOf_iff_prefix]

theorem occursAtB_le {c q : List Char} {p : Nat} (hq : q ≠ [])
    (h : occursAtB c q p = true) : p + q.length ≤ c.length := by
  have hpre := occursAtB_iff.mp h
  have hlen := hpre.length_le
  rw [List.length_drop] at hlen
  have hql : 0 < q.length := List.length_pos.mpr hq
  omega

theorem occursAtB_get? {c q : List Char} {p : Nat} (h : occursAtB c q p = true)
    {i : Nat} (hi : i < q.length) : c.get? (p + i) = q.get? i := by
  obtain ⟨t, ht⟩ := occursAtB_iff.mp h
  rw [← List.get?_drop, ← ht, List.get?_append hi]

theorem findFrom_none_spec (c q : List Char) :
    ∀ fuel start, c.length + 1 - start ≤ fuel →
      findFrom c q fuel start = none →
      ∀ k, start ≤ k → k + q.length ≤ c.length → occursAtB c q k = false := by
  intro fuel
  induction fuel with
  | zero =>
    intro start hfuel _ k hk1 hk2
    omega
  | succ fuel ih =>
    intro start hfuel hnone k hk1 hk2
    rw [findFrom] at hnone
    by_cases hrange : start + q.length ≤ c.length
    · rw [if_pos hrange] at hnone
      by_cases hocc : occursAtB c q start = true
      · rw [if_pos hocc] at hnone; cases hnone
      · rw [if_neg hocc] at hnone
        rcases eq_or_lt_of_le hk1 with h | h
        · subst h; exact Bool.eq_false_iff.mpr hocc
        · exact ih (start + 1) (by omega) hnone k (by omega) hk2
    · rw [if_neg hrange] at hnone
      omega

theorem findFrom_some_spec (c q : List Char) :
    ∀ fuel start p, findFrom c q fuel start = some p →
      start ≤ p ∧ occursAtB c q p = true ∧ p + q.length ≤ c.length ∧
        ∀ k, start ≤ k → k < p → occursAtB c q k = false := by
  intro fuel
  induction fuel with
  | zero => intro start p h; cases h
  | succ fuel ih =>
    intro start p h
    rw [findFrom] at h
    by_cases hrange : start + q.length ≤ c.length
    · rw [if_pos hrange] at h
      by_cases hocc : occursAtB c q start = true
      · rw [if_pos hocc] at h
        cases h
        exact ⟨le_refl _, hocc, hrange, fun k h1 h2 => by omega⟩
      · rw [if_neg hocc] at h
        obtain ⟨h1, h2, h3, h4⟩ := ih (start + 1) p h
        refine ⟨by omega, h2, h3, fun k hk1 hk2 => ?_⟩
        rcases eq_or_lt_of_le hk1 with hk | hk
        · subst hk; exact Bool.eq_false_iff.mpr hocc
        · exact h4 k (by omega) hk2
    · rw [if_neg hrange] at h; cases h

theorem mmapLoop_spec (c q : List Char) (hq : q ≠ []) :
    ∀ fuel start, c.length + 1 - start ≤ fuel →
      (mmapLoop c q fuel start = true ↔
        ∃ p, start ≤ p ∧ occursAtB c q p = true ∧
          beforeOk c p = true ∧ afterOk c q p = true) := by
  intro fuel
  induction fuel with
  | zero =>
    intro start hfuel
    refine iff_of_false (by simp [mmapLoop]) ?_
    rintro ⟨p, hp, hocc, -, -⟩
    have := occursAtB_le hq hocc
    have hql : 0 < q.length := List.length_pos.mpr hq
    omega
  | succ fuel ih =>
    intro start hfuel
    cases hfind : findFrom c q (c.length + 1) start with
    | none =>
      refine iff_of_false (by simp [mmapLoop, hfind]) ?_
      rintro ⟨p, hp, hocc, -, -⟩
      have := findFrom_none_spec c q (c.length + 1) start (by omega) hfind p hp
        (occursAtB_le hq hocc)
      rw [this] at hocc
      cases hocc
    | some pos =>
      obtain ⟨hsp, hocc, hrange, hmin⟩ := findFrom_some_spec c q (c.length + 1) start pos hfind
      have hstep : mmapLoop c q (fuel + 1) start =
          if (beforeOk c pos && afterOk c q pos) = true then true
          else mmapLoop c q fuel (pos + 1) := by
        rw [mmapLoop, hfind]
      by_cases hb : (beforeOk c pos && afterOk c q pos) = true
      · rw [hstep, if_pos hb]
        simp only [true_iff]
        rw [Bool.and_eq_true] at hb
        exact ⟨pos, hsp, hocc, hb.1, hb.2⟩
      · rw [hstep, if_neg hb]
        have hql : 0 < q.length := List.length_pos.mpr hq
        rw [ih (pos + 1) (by omega)]
        constructor
        · rintro ⟨p, hp, h1, h2, h3⟩
          exact ⟨p, by omega, h1, h2, h3⟩
        · rintro ⟨p, hp, h1, h2, h3⟩
          refine ⟨p, ?_, h1, h2, h3⟩
          rcases lt_trichotomy p pos with h | h | h
          · rw [hmin p hp h] at h1; cases h1
          · subst h
            rw [h2, h3] at hb
            simp at hb
          · omega

theorem search_mmap_scan_iff {c q : List Char} (hq : q ≠ []) :
    search_mmap_scan c q = true ↔
      ∃ p, occursAtB c q p = true ∧ beforeOk c p = true ∧ afterOk c q p = true := by
  unfold search_mmap_scan
  rw [if_neg (show ¬ q.isEmpty = true by simp [List.isEmpty_iff, hq])]
  by_cases hc : c.isEmpty
  · rw [if_pos hc]
    refine iff_of_false (by simp) ?_
    rintro ⟨p, hocc, -, -⟩
    have := occursAtB_le hq hocc
    have hql : 0 < q.length := List.length_pos.mpr hq
    rw [List.isEmpty_iff] at hc
    subst hc
    simp only [List.length_nil] at this
    omega
  · rw [if_neg hc]
    rw [mmapLoop_spec c q hq (c.length + 1) 0 (by omega)]
    constructor
    · rintro ⟨p, -, h⟩; exact ⟨p, h⟩
    · rintro ⟨p, h⟩; exact ⟨p, Nat.zero_le _, h⟩

/-! ## Line-bounded occurrences in a well-formed file -/

theorem noTerm_get?_ne {l : List Char} {i : Nat} {a : Char}
    (hl : noTerm l = true) (h : l.get? i = some a) : a ≠ '\n' ∧ a ≠ '\r' :=
  noTerm_iff.mp hl a (List.get?_mem h)

theorem get?_isSome_of_lt {l : List Char} {i : Nat} (h : i < l.length) :
    ∃ a, l.get? i = some a := by
  rcases hg : l.get? i with _ | a
  · rw [List.get?_eq_none] at hg
    omega
  · exact ⟨a, rfl⟩

theorem get?_shift (pre c : List Char) (i : Nat) :
    (pre ++ c).get? (pre.length + i) = c.get? i := by
  rw [List.get?_append_right (by omega)]
  congr 1
  omega

theorem occursAtB_shift (pre c q : List Char) (p : Nat) :
    occursAtB (pre ++ c) q (pre.length + p) = occursAtB c q p := by
  unfold occursAtB
  rw [List.drop_append]

theorem afterOk_shift (pre c q : List Char) (p : Nat) :
    afterOk (pre ++ c) q (pre.length + p) = afterOk c q p := by
  unfold afterOk
  have e1 : pre.length + p + q.length = pre.length + (p + q.length) := by omega
  have e2 : pre.length + (p + q.length) + 1 = pre.length + (p + q.length + 1) := by omega
  rw [e1, e2, get?_shift, get?_shift, List.length_append]
  have e4 : (pre.length + (p + q.length) == pre.length + c.length) = (p + q.length == c.length) := by
    rw [Bool.eq_iff_iff]
    simp only [beq_iff_eq]
    omega
  have e5 : (pre.length + (p + q.length + 1) == pre.length + c.length) =
      (p + q.length + 1 == c.length) := by
    rw [Bool.eq_iff_iff]
    simp only [beq_iff_eq]
    omega
  rw [e4, e5]

theorem beforeOk_shift_pos (pre c : List Char) {p : Nat} (hp : 1 ≤ p) :
    beforeOk (pre ++ c) (pre.length + p) = beforeOk c p := by
  unfold beforeOk
  have e1 : (pre.length + p == 0) = false := by
    rw [Bool.eq_false_iff]
    simp only [ne_eq, beq_iff_eq]
    omega
  have e2 : (p == 0) = false := by
    rw [Bool.eq_false_iff]
    simp only [ne_eq, beq_iff_eq]
    omega
  have e3 : pre.length + p - 1 = pre.length + (p - 1) := by omega
  rw [e1, e2, e3, get?_shift]

theorem occ_zero_eq_line {l suffix q : List Char} (hl : noTerm l = true)
    (hq : noTerm q = true)
    (hsuf : suffix = [] ∨ (∃ rest, suffix = '\n' :: rest) ∨ (∃ rest, suffix = '\r' :: rest))
    (hocc : occursAtB (l ++ suffix) q 0 = true)
    (hafter : afterOk (l ++ suffix) q 0 = true) :
    q = l := by
  have hpre : q <+: l ++ suffix := by
    have := occursAtB_iff.mp hocc
    simpa using this
  rcases lt_trichotomy q.length l.length with hlen | hlen | hlen
  · exfalso
    obtain ⟨a, ha⟩ := get?_isSome_of_lt (l := l) hlen
    have hga : (l ++ suffix).get? q.length = some a := by
      rw [List.get?_append hlen]
      exact ha
    obtain ⟨ha1, ha2⟩ := noTerm_get?_ne hl ha
    have hne : (0 + q.length == (l ++ suffix).length) = false := by
      rw [Bool.eq_false_iff]
      simp only [ne_eq, beq_iff_eq, List.length_append]
      omega
    unfold afterOk at hafter
    rw [hne] at hafter
    simp only [Nat.zero_add, hga, beq_iff_eq, Option.some.injEq, if_false] at hafter
    rw [if_neg ha1, if_neg ha2] at hafter
    cases hafter
  · have := List.prefix_iff_eq_take.mp hpre
    rw [this, List.take_append_of_le_length (le_of_eq hlen), hlen, List.take_length]
  · exfalso
    rcases hsuf with hs | ⟨rest, hs⟩ | ⟨rest, hs⟩
    · subst hs
      have := hpre.length_le
      simp at this
      omega
    · subst hs
      have hcg : (l ++ '\n' :: rest).get? (0 + l.length) = q.get? l.length :=
        occursAtB_get? hocc hlen
      rw [Nat.zero_add, List.get?_append_right (le_refl _), Nat.sub_self] at hcg
      simp only [List.get?] at hcg
      exact (noTerm_get?_ne hq hcg.symm).1 rfl
    · subst hs
      have hcg : (l ++ '\r' :: rest).get? (0 + l.length) = q.get? l.length :=
        occursAtB_get? hocc hlen
      rw [Nat.zero_add, List.get?_append_right (le_refl _), Nat.sub_self] at hcg
      simp only [List.get?] at hcg
      exact (noTerm_get?_ne hq hcg.symm).2 rfl

theorem occ_shift_down {pre rest q : List Char} {p' : Nat}
    (h : occursAtB (pre ++ rest) q (pre.length + p') = true) :
    occursAtB rest q p' = true := by
  rwa [occursAtB_shift] at h

theorem after_shift_down {pre rest q : List Char} {p' : Nat}
    (h : afterOk (pre ++ rest) q (pre.length + p') = true) :
    afterOk rest q p' = true := by
  rwa [afterOk_shift] at h

theorem beforeOk_zero (c : List Char) : beforeOk c 0 = true := by
  simp [beforeOk]

theorem beforeOk_after_terminator {pre rest : List Char} (hlen : 1 ≤ pre.length)
    (hpre : pre.get? (pre.length - 1) = some '\n') :
    beforeOk (pre ++ rest) pre.length = true := by
  unfold beforeOk
  rw [List.get?_append (by omega), hpre]
  simp

theorem bounded_occ_mem {ls : List (List Char)} {c : List Char} (hf : FileOf ls c)
    {q : List Char} (hq : noTerm q = true) (hqne : q ≠ []) :
    ∀ p, occursAtB c q p = true → beforeOk c p = true → afterOk c q p = true → q ∈ ls := by
  induction hf with
  | nil =>
    intro p hocc _ _
    exfalso
    have hle := (occursAtB_iff.mp hocc).length_le
    simp only [List.drop_nil, List.length_nil] at hle
    exact hqne (List.length_eq_zero.mp (by omega))
  | last l hl hlne =>
    intro p hocc hbefore hafter
    have hp0 : p = 0 := by
      unfold beforeOk at hbefore
      simp only [Bool.or_eq_true, beq_iff_eq] at hbefore
      rcases hbefore with h | h
      · exact h
      · exact absurd rfl (noTerm_get?_ne hl h).1
    subst hp0
    have hocc' : occursAtB (l ++ []) q 0 = true := by simpa using hocc
    have hafter' : afterOk (l ++ []) q 0 = true := by simpa using hafter
    have := occ_zero_eq_line hl hq (Or.inl rfl) hocc' hafter'
    simp [this]
  | lf l ls rest hl hrest ih =>
    intro p hocc hbefore hafter
    by_cases hp : p = 0
    · subst hp
      have := occ_zero_eq_line hl hq (Or.inr (Or.inl ⟨rest, rfl⟩)) hocc hafter
      simp [this]
    · have hnl : (l ++ '\n' :: rest).get? (p - 1) = some '\n' := by
        unfold beforeOk at hbefore
        simp only [Bool.or_eq_true, beq_iff_eq] at hbefore
        rcases hbefore with h | h
        · exact absurd h hp
        · exact h
      have hpm : l.length + 1 ≤ p := by
        by_contra hc
        push_neg at hc
        have hplt : p - 1 < l.length := by omega
        rw [List.get?_append hplt] at hnl
        exact (noTerm_get?_ne hl hnl).1 rfl
      obtain ⟨p', rfl⟩ : ∃ p', p = (l ++ ['\n']).length + p' :=
        ⟨p - (l.length + 1), by simp; omega⟩
      have hc2 : l ++ '\n' :: rest = (l ++ ['\n']) ++ rest := by simp
      rw [hc2] at hocc hafter hnl
      have hocc' := occ_shift_down hocc
      have hafter' := after_shift_down hafter
      have hbefore' : beforeOk rest p' = true := by
        rcases Nat.eq_zero_or_pos p' with h0 | h0
        · subst h0; exact beforeOk_zero rest
        · rw [← beforeOk_shift_pos (l ++ ['\n']) rest h0]
          unfold beforeOk
          simp only [Bool.or_eq_true, beq_iff_eq]
          right
          exact hnl
      exact List.mem_cons_of_mem l (ih p' hocc' hbefore' hafter')
  | crlf l ls rest hl hrest ih =>
    intro p hocc hbefore hafter
    by_cases hp : p = 0
    · subst hp
      have := occ_zero_eq_line hl hq (Or.inr (Or.inr ⟨'\n' :: rest, rfl⟩)) hocc hafter
      simp [this]
    · have hnl : (l ++ '\r' :: '\n' :: rest).get? (p - 1) = some '\n' := by
        unfold beforeOk at hbefore
        simp only [Bool.or_eq_true, beq_iff_eq] at hbefore
        rcases hbefore with h | h
        · exact absurd h hp
        · exact h
      have hpm : l.length + 2 ≤ p := by
        by_contra hc
        push_neg at hc
        rcases lt_trichotomy (p - 1) l.length with hplt | hpe | hplt
        · rw [List.get?_append hplt] at hnl
          exact (noTerm_get?_ne hl hnl).1 rfl
        · rw [List.get?_append_right (le_of_eq hpe.symm), hpe, Nat.sub_self] at hnl
          simp only [List.get?] at hnl
          cases hnl
        · omega
      obtain ⟨p', rfl⟩ : ∃ p', p = (l ++ ['\r', '\n']).length + p' :=
        ⟨p - (l.length + 2), by simp; omega⟩
      have hc2 : l ++ '\r' :: '\n' :: rest = (l ++ ['\r', '\n']) ++ rest := by simp
      rw [hc2] at hocc hafter hnl
      have hocc' := occ_shift_down hocc
      have hafter' := after_shift_down hafter
      have hbefore' : beforeOk rest p' = true := by
        rcases Nat.eq_zero_or_pos p' with h0 | h0
        · subst h0; exact beforeOk_zero rest
        · rw [← beforeOk_shift_pos (l ++ ['\r', '\n']) rest h0]
          unfold beforeOk
          simp only [Bool.or_eq_true, beq_iff_eq]
          right
          exact hnl
      exact List.mem_cons_of_mem l (ih p' hocc' hbefore' hafter')

theorem mem_bounded_occ {ls : List (List Char)} {c : List Char} (hf : FileOf ls c)
    {q : List Char} (hq : noTerm q = true) (hqne : q ≠ []) (hmem : q ∈ ls) :
    ∃ p, occursAtB c q p = true ∧ beforeOk c p = true ∧ afterOk c q p = true := by
  induction hf with
  | nil => cases hmem
  | last l hl hlne =>
    rw [List.mem_singleton] at hmem
    subst hmem
    refine ⟨0, ?_, beforeOk_zero _, ?_⟩
    · rw [occursAtB_iff, List.drop_zero]
    · unfold afterOk
      simp
  | lf l ls rest hl hrest ih =>
    rcases List.mem_cons.mp hmem with hql | hmem'
    · subst hql
      refine ⟨0, ?_, beforeOk_zero _, ?_⟩
      · rw [occursAtB_iff, List.drop_zero]
        exact List.prefix_append q ('\n' :: rest)
      · unfold afterOk
        have hne : (0 + q.length == (q ++ '\n' :: rest).length) = false := by
          rw [Bool.eq_false_iff]
          simp only [ne_eq, beq_iff_eq, List.length_append, List.length_cons]
          omega
        rw [hne, if_neg (by simp), Nat.zero_add,
          List.get?_append_right (le_refl _), Nat.sub_self]
        simp
    · obtain ⟨p', h1, h2, h3⟩ := ih hmem'
      have hc2 : l ++ '\n' :: rest = (l ++ ['\n']) ++ rest := by simp
      refine ⟨(l ++ ['\n']).length + p', ?_, ?_, ?_⟩
      · rw [hc2, occursAtB_shift]
        exact h1
      · rcases Nat.eq_zero_or_pos p' with h0 | h0
        · subst h0
          rw [hc2, Nat.add_zero]
          refine beforeOk_after_terminator (by simp) ?_
          rw [List.length_append, List.length_singleton, Nat.add_sub_cancel,
            List.get?_append_right (le_refl _), Nat.sub_self]
          rfl
        · rw [hc2, beforeOk_shift_pos (l ++ ['\n']) rest h0]
          exact h2
      · rw [hc2, afterOk_shift]
        exact h3
  | crlf l ls rest hl hrest ih =>
    rcases List.mem_cons.mp hmem with hql | hmem'
    · subst hql
      refine ⟨0, ?_, beforeOk_zero _, ?_⟩
      · rw [occursAtB_iff, List.drop_zero]
        exact List.prefix_append q ('\r' :: '\n' :: rest)
      · unfold afterOk
        have hne : (0 + q.length == (q ++ '\r' :: '\n' :: rest).length) = false := by
          rw [Bool.eq_false_iff]
          simp only [ne_eq, beq_iff_eq, List.length_append, List.length_cons]
          omega
        have hr : (q ++ '\r' :: '\n' :: rest).get? (0 + q.length) = some '\r' := by
          rw [Nat.zero_add, List.get?_append_right (le_refl _), Nat.sub_self]
          rfl
        have hn : (q ++ '\r' :: '\n' :: rest).get? (0 + q.length + 1) = some '\n' := by
          rw [Nat.zero_add, List.get?_append_right (by omega), Nat.add_sub_cancel_left]
          rfl
        rw [hne, if_neg (by simp), if_neg (by rw [hr]; decide), if_pos (by rw [hr]; decide), hn]
        simp
    · obtain ⟨p', h1, h2, h3⟩ := ih hmem'
      have hc2 : l ++ '\r' :: '\n' :: rest = (l ++ ['\r', '\n']) ++ rest := by simp
      refine ⟨(l ++ ['\r', '\n']).length + p', ?_, ?_, ?_⟩
      · rw [hc2, occursAtB_shift]
        exact h1
      · rcases Nat.eq_zero_or_pos p' with h0 | h0
        · subst h0
          rw [hc2, Nat.add_zero]
          refine beforeOk_after_terminator (by simp) ?_
          have : (l ++ ['\r', '\n']).length - 1 = l.length + 1 := by simp
          rw [this, List.get?_append_right (by omega), Nat.add_sub_cancel_left]
          rfl
        · rw [hc2, beforeOk_shift_pos (l ++ ['\r', '\n']) rest h0]
          exact h2
      · rw [hc2, afterOk_shift]
        exact h3

theorem FileOf.mmap_iff_mem {ls : List (List Char)} {c : List Char} (hf : FileOf ls c)
    {q : List Char} (hq : noTerm q = true) (hqne : q ≠ []) :
    search_mmap_scan c q = true ↔ q ∈ ls := by
  rw [search_mmap_scan_iff hqne]
  constructor
  · rintro ⟨p, h1, h2, h3⟩
    exact bounded_occ_mem hf hq hqne p h1 h2 h3
  · intro h
    obtain ⟨p, h1, h2, h3⟩ := mem_bounded_occ hf hq hqne h
    exact ⟨p, h1, h2, h3⟩

/-! ## Lemmas about the session loop -/

theorem rstripByte_decomp (b : Nat) : ∀ xs : List Nat,
    ∃ n, xs = rstripByte b xs ++ List.replicate n b ∧
      (rstripByte b xs).getLast? ≠ some b := by
  intro xs
  induction xs with
  | nil => exact ⟨0, by simp [rstripByte], by simp [rstripByte]⟩
  | cons x xs ih =>
    obtain ⟨n, hx, hl⟩ := ih
    by_cases h : rstripByte b xs = [] ∧ x = b
    · refine ⟨n + 1, ?_, ?_⟩
      · have he : rstripByte b (x :: xs) = [] := by
          simp only [rstripByte]
          rw [if_pos h]
        rw [he, List.nil_append, List.replicate_succ]
        rw [hx, h.1, List.nil_append, h.2]
      · have he : rstripByte b (x :: xs) = [] := by
          simp only [rstripByte]
          rw [if_pos h]
        simp [he]
    · have he : rstripByte b (x :: xs) = x :: rstripByte b xs := by
        simp only [rstripByte]
        rw [if_neg h]
      refine ⟨n, ?_, ?_⟩
      · rw [he, List.cons_append, ← hx]
      · rw [he]
        rcases hr : rstripByte b xs with _ | ⟨y, r⟩
        · have hxb : x ≠ b := fun hxe => h ⟨hr, hxe⟩
          simp [hxb]
        · rw [List.getLast?_cons_cons]
          rw [hr] at hl
          exact hl

theorem trimLine_decomp (raw : List Nat) :
    ∃ i j, raw = trimLine raw ++ List.replicate j 0 ++ List.replicate i 13 ∧
      (trimLine raw).getLast? ≠ some 0 ∧
      (trimLine raw ++ List.replicate j 0).getLast? ≠ some 13 := by
  obtain ⟨i, h13, hl13⟩ := rstripByte_decomp 13 raw
  obtain ⟨j, h0, hl0⟩ := rstripByte_decomp 0 (rstripByte 13 raw)
  refine ⟨i, j, ?_, hl0, ?_⟩
  · conv_lhs => rw [h13, h0]
    simp [trimLine]
  · show (rstripByte 0 (rstripByte 13 raw) ++ List.replicate j 0).getLast? ≠ some 13
    rw [← h0]
    exact hl13

theorem extractLines_spec : ∀ buf : List Nat,
    ((extractLines buf).1.foldr (fun l acc => l ++ 10 :: acc) (extractLines buf).2 = buf) ∧
    (∀ l ∈ (extractLines buf).1, (10 : Nat) ∉ l) ∧ ((10 : Nat) ∉ (extractLines buf).2) := by
  intro buf
  induction buf with
  | nil => simp [extractLines]
  | cons b rest ih =>
    obtain ⟨ih1, ih2, ih3⟩ := ih
    by_cases hb : b = 10
    · subst hb
      simp only [extractLines, if_pos rfl]
      refine ⟨?_, ?_, ih3⟩
      · simp [ih1]
      · intro l hlmem
        rcases List.mem_cons.mp hlmem with h | h
        · subst h; simp
        · exact ih2 l h
    · rcases hE : extractLines rest with ⟨ls, rem⟩
      rw [hE] at ih1 ih2 ih3
      dsimp only at ih1 ih2 ih3
      have he : extractLines (b :: rest) = consByte b (ls, rem) := by
        simp only [extractLines, if_neg hb, hE]
      cases ls with
      | nil =>
        simp only [consByte] at he
        rw [he]
        refine ⟨?_, by simp, ?_⟩
        · simp only [List.foldr_nil]
          simp only [List.foldr_nil] at ih1
          rw [ih1]
        · simp only [List.mem_cons, not_or]
          exact ⟨fun h => hb h.symm, ih3⟩
          -- membership of 10 in b :: rem
      | cons l ls' =>
        simp only [consByte] at he
        rw [he]
        refine ⟨?_, ?_, ih3⟩
        · simp only [List.foldr_cons, List.cons_append]
          simp only [List.foldr_cons] at ih1
          rw [ih1]
        · intro l' hl'
          rcases List.mem_cons.mp hl' with h | h
          · subst h
            simp only [List.mem_cons, not_or]
            exact ⟨fun h => hb h.symm, ih2 l (by simp)⟩
          · exact ih2 l' (List.mem_cons_of_mem l h)

theorem processLines_cons_long {σ : Type} (step : σ → List Nat → Except EngineError Bool × σ)
    (s : σ) (raw : List Nat) (rest : List (List Nat))
    (h : (trimLine raw).length > MAX_PAYLOAD_BYTES) :
    processLines step s (raw :: rest) =
      (Response.tooLong :: (processLines step s rest).1, (processLines step s rest).2) := by
  simp only [processLines]
  rw [if_pos h]

theorem processLines_cons_answer {σ : Type} (step : σ → List Nat → Except EngineError Bool × σ)
    (s : σ) (raw : List Nat) (rest : List (List Nat))
    (h : ¬ (trimLine raw).length > MAX_PAYLOAD_BYTES) :
    processLines step s (raw :: rest) =
      (Response.answer (trimLine raw) (resolveFound (step s (trimLine raw)).1) ::
        (processLines step (step s (trimLine raw)).2 rest).1,
       (processLines step (step s (trimLine raw)).2 rest).2) := by
  simp only [processLines]
  rw [if_neg h]

/-! ## Claim theorems -/

theorem contains_iff_mem {α : Type} [BEq α] [LawfulBEq α] {l : List α} {a : α} :
    l.contains a = true ↔ a ∈ l :=
  List.elem_iff

theorem any_beq_eq_contains (ls : List (List Char)) (q : List Char) :
    ls.any (fun line => line == q) = ls.contains q := by
  rw [Bool.eq_iff_iff, List.any_eq_true, contains_iff_mem]
  constructor
  · rintro ⟨x, hx, heq⟩
    rw [beq_iff_eq] at heq
    exact heq ▸ hx
  · intro h
    exact ⟨q, h, by simp⟩

/-- C1 counterexample: on the file "abc\rdef\n" (a bare `\r` line terminator)
and the query "abc", the linear scan answers true (Python universal newlines
treat `\r` as a terminator) while the mmap scan answers false (it only
accepts `\n`/`\r\n`/end-of-file boundaries), so the five matchers do not all
give the same answer on the same file contents, refuting the claim as
stated. -/
theorem c1_counterexample :
    search_linear_scan ['a', 'b', 'c', '\r', 'd', 'e', 'f', '\n'] ['a', 'b', 'c'] = true ∧
    search_mmap_scan ['a', 'b', 'c', '\r', 'd', 'e', 'f', '\n'] ['a', 'b', 'c'] = false := by
  exact ⟨by decide, by decide⟩

/-- C1 (amended): restricted to reference files whose line terminators are
`\n` or `\r\n` (no bare `\r`) and to non-empty queries containing no `\n` or
`\r`, the five matchers (linear scan, mmap scan, grep -F -x, set cache,
sorted bisect) all return the same answer: true exactly when the query
equals an entire terminator-stripped line of the file; any other query —
including strict substrings, superstrings and whitespace-altered variants
of a stored line — returns false. -/
theorem c1_exact_full_line_match {ls : List (List Char)} {c : List Char}
    (hfile : FileOf ls c) {q : List Char} (hq : noTerm q = true) (hqne : q ≠ []) :
    search_linear_scan c q = ls.contains q ∧
    search_mmap_scan c q = ls.contains q ∧
    search_grep_fx c q = ls.contains q ∧
    search_set_cache (build_set_cache c) q = ls.contains q ∧
    search_sorted_bisect (build_sorted_list c) q = ls.contains q := by
  have hsplit : splitLinesUniv c = ls := hfile.splitLines
  refine ⟨?_, ?_, ?_, ?_, ?_⟩
  · unfold search_linear_scan
    rw [hsplit, any_beq_eq_contains]
  · rw [Bool.eq_iff_iff, FileOf.mmap_iff_mem hfile hq hqne, contains_iff_mem]
  · unfold search_grep_fx
    rw [hsplit, any_beq_eq_contains]
  · unfold search_set_cache
    rw [Bool.eq_iff_iff, contains_iff_mem, contains_iff_mem, mem_build_set_cache, hsplit]
  · rw [Bool.eq_iff_iff, search_sorted_bisect_mem (sorted_build_sorted_list c),
      mem_build_sorted_list, hsplit, contains_iff_mem]

theorem c1_exact_full_line_match_witness :
    search_linear_scan ['a', '\n', 'b', 'c', '\n'] ['b', 'c'] =
      [['a'], ['b', 'c']].contains ['b', 'c'] ∧
    search_mmap_scan ['a', '\n', 'b', 'c', '\n'] ['b', 'c'] =
      [['a'], ['b', 'c']].contains ['b', 'c'] ∧
    search_grep_fx ['a', '\n', 'b', 'c', '\n'] ['b', 'c'] =
      [['a'], ['b', 'c']].contains ['b', 'c'] ∧
    search_set_cache (build_set_cache ['a', '\n', 'b', 'c', '\n']) ['b', 'c'] =
      [['a'], ['b', 'c']].contains ['b', 'c'] ∧
    search_sorted_bisect (build_sorted_list ['a', '\n', 'b', 'c', '\n']) ['b', 'c'] =
      [['a'], ['b', 'c']].contains ['b', 'c'] := by
  have hfile : FileOf [['a'], ['b', 'c']] ['a', '\n', 'b', 'c', '\n'] := by
    have h2 : FileOf [['b', 'c']] (['b', 'c'] ++ '\n' :: []) :=
      FileOf.lf ['b', 'c'] [] [] (by decide) FileOf.nil
    have h1 := FileOf.lf ['a'] [['b', 'c']] (['b', 'c'] ++ '\n' :: []) (by decide) h2
    simpa using h1
  exact c1_exact_full_line_match hfile (by decide) (by decide)

/-- C2: search_mmap_scan returns false unconditionally for an empty query and
false on an empty file; for a non-empty query it returns true iff the query
occurs at some line-bounded position (preceding byte is `\n` or offset 0;
following bytes are `\n`, end-of-file, or `\r` then `\n`/end-of-file);
non-line-bounded occurrences are skipped, which the iff captures since only
the existence of a bounded occurrence makes the result true. -/
theorem c2_mmap_boundary_spec (c q : List Char) :
    (q = [] → search_mmap_scan c q = false) ∧
    (c = [] → search_mmap_scan c q = false) ∧
    (q ≠ [] → (search_mmap_scan c q = true ↔
      ∃ p, occursAtB c q p = true ∧ beforeOk c p = true ∧ afterOk c q p = true)) := by
  refine ⟨?_, ?_, fun hq => search_mmap_scan_iff hq⟩
  · intro h
    subst h
    rfl
  · intro h
    subst h
    cases q <;> rfl

theorem c2_mmap_boundary_spec_witness :
    search_mmap_scan ['x', 'a', 'b', '\n', 'a', 'b', '\n'] ['a', 'b'] = true := by
  have h := (c2_mmap_boundary_spec ['x', 'a', 'b', '\n', 'a', 'b', '\n'] ['a', 'b']).2.2
    (by decide)
  exact h.mpr ⟨4, by decide, by decide, by decide⟩

theorem validate_bad {e : SearchEngine}
    (h : e.search_algo ∉ ALL_ALGOS ∨
      (e.reread_on_query = true ∧ e.search_algo ∈ CACHED_ALGOS)) :
    ∃ er, validateCompatibility e = .error er ∧ er.isConfigError = true := by
  unfold validateCompatibility
  by_cases h1 : ALL_ALGOS.contains e.search_algo
  · have hmem : e.search_algo ∈ ALL_ALGOS := contains_iff_mem.mp h1
    have h2 : e.reread_on_query = true ∧ e.search_algo ∈ CACHED_ALGOS := by
      rcases h with h | h
      · exact absurd hmem h
      · exact h
    rw [if_neg (by simp [hmem])]
    rw [if_pos (by rw [h2.1, contains_iff_mem.mpr h2.2]; rfl)]
    exact ⟨.incompatible e.search_algo, rfl, rfl⟩
  · rw [if_pos (by rw [Bool.eq_false_iff.mpr h1]; rfl)]
    exact ⟨.unsupportedAlgo e.search_algo, rfl, rfl⟩

theorem validate_good {e : SearchEngine}
    (h : ¬(e.search_algo ∉ ALL_ALGOS ∨
      (e.reread_on_query = true ∧ e.search_algo ∈ CACHED_ALGOS))) :
    validateCompatibility e = .ok () := by
  push_neg at h
  obtain ⟨hmem, hnc⟩ := h
  unfold validateCompatibility
  rw [if_neg (by simp [hmem])]
  rw [if_neg ?_]
  intro hcond
  rw [Bool.and_eq_true] at hcond
  exact hnc hcond.1 (contains_iff_mem.mp hcond.2)

/-- C3: constructing a SearchEngine via from_config fails with a
configuration error (unsupported algorithm, or reread mode combined with
set_cache/sorted_bisect) exactly on the invalid mode/algorithm pairs, and
both exists and warmup re-run the same compatibility check first, so an
engine whose mutable fields have become incompatible fails with the same
configuration error instead of answering. -/
theorem c3_validation_everywhere :
    (∀ cfg : AppConfig,
      (cfg.search_algo ∉ ALL_ALGOS ∨
        (cfg.reread_on_query = true ∧ cfg.search_algo ∈ CACHED_ALGOS)) →
      ∃ er, fromConfig cfg = .error er ∧ er.isConfigError = true) ∧
    (∀ cfg : AppConfig,
      ¬(cfg.search_algo ∉ ALL_ALGOS ∨
        (cfg.reread_on_query = true ∧ cfg.search_algo ∈ CACHED_ALGOS)) →
      fromConfig cfg = .ok ⟨cfg.reread_on_query, cfg.search_algo, none⟩) ∧
    (∀ (e : SearchEngine) (disk : Disk) (q : List Char),
      (e.search_algo ∉ ALL_ALGOS ∨
        (e.reread_on_query = true ∧ e.search_algo ∈ CACHED_ALGOS)) →
      (∃ er, existsSt e disk q = (.error er, e) ∧ er.isConfigError = true) ∧
      (∃ er, warmupSt e disk = (.error er, e) ∧ er.isConfigError = true)) := by
  refine ⟨?_, ?_, ?_⟩
  · intro cfg h
    obtain ⟨er, her, hcfg⟩ :=
      validate_bad (e := ⟨cfg.reread_on_query, cfg.search_algo, none⟩) h
    exact ⟨er, by unfold fromConfig; rw [her], hcfg⟩
  · intro cfg h
    have := validate_good (e := ⟨cfg.reread_on_query, cfg.search_algo, none⟩) h
    unfold fromConfig
    rw [this]
  · intro e disk q h
    obtain ⟨er, her, hcfg⟩ := validate_bad h
    constructor
    · exact ⟨er, by unfold existsSt; rw [her], hcfg⟩
    · exact ⟨er, by unfold warmupSt; rw [her], hcfg⟩

theorem c3_validation_everywhere_witness :
    (∃ er, fromConfig ⟨true, "set_cache"⟩ = .error er ∧ er.isConfigError = true) ∧
    (∃ er, existsSt ⟨true, "set_cache", none⟩ (.ok []) [] =
      (.error er, ⟨true, "set_cache", none⟩) ∧ er.isConfigError = true) ∧
    (∃ er, fromConfig ⟨false, "bogus"⟩ = .error er ∧ er.isConfigError = true) := by
  refine ⟨c3_validation_everywhere.1 ⟨true, "set_cache"⟩ ?_,
    (c3_validation_everywhere.2.2 ⟨true, "set_cache", none⟩ (.ok []) [] ?_).1,
    c3_validation_everywhere.1 ⟨false, "bogus"⟩ ?_⟩
  · right
    exact ⟨rfl, by decide⟩
  · right
    exact ⟨rfl, by decide⟩
  · left
    decide

/-- C4: for a set_cache engine after a successful warmup, every exists
answer is computed from the cache built at warmup time alone — the result is
the membership test against the set built from the warmup-time file
contents, it is identical for any two disk states (so later file mutation is
invisible), and the query leaves the engine (hence its cache) unchanged. -/
theorem c4_cache_immutable_after_warmup
    (e : SearchEngine) (c₀ : List Char) (e₁ : SearchEngine)
    (hmode : e.reread_on_query = false) (halgo : e.search_algo = "set_cache")
    (hw : warmupSt e (.ok c₀) = (.ok (), e₁)) :
    ∀ (disk disk' : Disk) (q : List Char),
      existsSt e₁ disk q = (.ok (search_set_cache (build_set_cache c₀) q), e₁) ∧
      existsSt e₁ disk q = existsSt e₁ disk' q := by
  obtain ⟨r, a, cache⟩ := e
  simp only at hmode halgo
  subst hmode
  subst halgo
  have he : e₁ = ⟨false, "set_cache", some (.setC (build_set_cache c₀))⟩ := by
    simp [warmupSt, validateCompatibility, ALL_ALGOS, CACHED_ALGOS, REREAD_ALGOS] at hw
    exact hw.symm
  subst he
  intro disk disk' q
  constructor
  · simp [existsSt, dispatchCached, validateCompatibility, ALL_ALGOS, CACHED_ALGOS,
      REREAD_ALGOS]
  · simp [existsSt, dispatchCached, validateCompatibility, ALL_ALGOS, CACHED_ALGOS,
      REREAD_ALGOS]

theorem c4_cache_immutable_after_warmup_witness :
    existsSt ⟨false, "set_cache", some (.setC [['a']])⟩ (.error "file gone") ['a'] =
      (.ok (search_set_cache (build_set_cache ['a', '\n']) ['a']),
        ⟨false, "set_cache", some (.setC [['a']])⟩) ∧
    existsSt ⟨false, "set_cache", some (.setC [['a']])⟩ (.error "file gone") ['a'] =
      existsSt ⟨false, "set_cache", some (.setC [['a']])⟩ (.ok []) ['a'] :=
  c4_cache_immutable_after_warmup ⟨false, "set_cache", none⟩ ['a', '\n'] _ rfl rfl
    (by rfl) (.error "file gone") (.ok []) ['a']

theorem linear_scan_eval {ls : List (List Char)} {c : List Char}
    (hfile : FileOf ls c) (q : List Char) :
    search_linear_scan c q = ls.contains q := by
  unfold search_linear_scan
  rw [hfile.splitLines, any_beq_eq_contains]

theorem contains_eq_false_of_not_mem {ls : List (List Char)} {q : List Char}
    (h : q ∉ ls) : ls.contains q = false :=
  Bool.eq_false_iff.mpr (fun hc => h (contains_iff_mem.mp hc))

/-- C5: in reread mode, every exists call derives its answer from the disk
contents passed for that call: with the queried line absent the call
answers false and leaves the engine unchanged, and after the same line
(terminated by `\n`) is appended to the file, the same engine instance and
query answer true — for each of the three reread-capable matchers. -/
theorem c5_reread_reflects_disk
    (e : SearchEngine) (ls : List (List Char)) (c q : List Char)
    (hmode : e.reread_on_query = true) (halgo : e.search_algo ∈ REREAD_ALGOS)
    (hfile : FileOf ls c) (hend : c = [] ∨ c.getLast? = some '\n')
    (hq : noTerm q = true) (hqne : q ≠ []) (hmiss : q ∉ ls) :
    existsSt e (.ok c) q = (.ok false, e) ∧
    existsSt e (.ok (c ++ q ++ ['\n'])) q = (.ok true, e) := by
  have hfile' : FileOf (ls ++ [q]) (c ++ q ++ ['\n']) := hfile.append_line hend hq
  obtain ⟨r, a, cache⟩ := e
  simp only at hmode halgo
  subst hmode
  have hlin1 : search_linear_scan c q = false := by
    rw [linear_scan_eval hfile q, contains_eq_false_of_not_mem hmiss]
  have hlin2 : search_linear_scan (c ++ (q ++ ['\n'])) q = true := by
    rw [← List.append_assoc, linear_scan_eval hfile' q]
    exact contains_iff_mem.mpr (by simp)
  have hgrep1 : search_grep_fx c q = false := hlin1
  have hgrep2 : search_grep_fx (c ++ (q ++ ['\n'])) q = true := hlin2
  have hmm1 : search_mmap_scan c q = false := by
    rw [Bool.eq_false_iff]
    intro hm
    exact hmiss ((FileOf.mmap_iff_mem hfile hq hqne).mp hm)
  have hmm2 : search_mmap_scan (c ++ (q ++ ['\n'])) q = true := by
    rw [← List.append_assoc]
    exact (FileOf.mmap_iff_mem hfile' hq hqne).mpr (by simp)
  simp only [REREAD_ALGOS, List.mem_cons, List.not_mem_nil, or_false] at halgo
  rcases halgo with rfl | rfl | rfl
  · constructor <;>
      simp [existsSt, validateCompatibility, runMatcher, ALL_ALGOS, CACHED_ALGOS,
        REREAD_ALGOS, hlin1, hlin2]
  · constructor <;>
      simp [existsSt, validateCompatibility, runMatcher, ALL_ALGOS, CACHED_ALGOS,
        REREAD_ALGOS, hmm1, hmm2]
  · constructor <;>
      simp [existsSt, validateCompatibility, runMatcher, ALL_ALGOS, CACHED_ALGOS,
        REREAD_ALGOS, hgrep1, hgrep2]

theorem c5_reread_reflects_disk_witness :
    existsSt ⟨true, "linear_scan", none⟩ (.ok ['a', '\n']) ['b'] =
      (.ok false, ⟨true, "linear_scan", none⟩) ∧
    existsSt ⟨true, "linear_scan", none⟩ (.ok (['a', '\n'] ++ ['b'] ++ ['\n'])) ['b'] =
      (.ok true, ⟨true, "linear_scan", none⟩) := by
  have hfile : FileOf [['a']] ['a', '\n'] := by
    have h := FileOf.lf ['a'] [] [] (by decide) FileOf.nil
    simpa using h
  exact c5_reread_reflects_disk ⟨true, "linear_scan", none⟩ [['a']] ['a', '\n'] ['b']
    rfl (by decide) hfile (Or.inr (by decide)) (by decide) (by decide) (by decide)

theorem rstripByte_eq_self {b : Nat} {xs : List Nat} (h : xs.getLast? ≠ some b) :
    rstripByte b xs = xs := by
  obtain ⟨n, hx, hl⟩ := rstripByte_decomp b xs
  cases n with
  | zero =>
    conv_rhs => rw [hx]
    simp
  | succ n =>
    exfalso
    apply h
    rw [hx, List.getLast?_append]
    have : (List.replicate (n + 1) b).getLast? = some b := by
      rw [List.replicate_succ', List.getLast?_concat]
    rw [this]
    rfl

theorem rstripByte_concat_self (b : Nat) : ∀ xs : List Nat,
    rstripByte b (xs ++ [b]) = rstripByte b xs := by
  intro xs
  induction xs with
  | nil => simp [rstripByte]
  | cons x xs ih => simp only [List.cons_append, rstripByte, List.append_eq, ih]

theorem getLast?_replicate_1024 : (List.replicate 1024 (97 : Nat)).getLast? = some 97 := by
  rw [show (1024 : Nat) = 1023 + 1 from rfl, List.replicate_succ', List.getLast?_concat]

theorem getLast?_replicate_1025 : (List.replicate 1025 (97 : Nat)).getLast? = some 97 := by
  rw [show (1025 : Nat) = 1024 + 1 from rfl, List.replicate_succ', List.getLast?_concat]

theorem trimLine_c6_input :
    trimLine (List.replicate 1024 97 ++ [0]) = List.replicate 1024 97 := by
  unfold trimLine
  rw [rstripByte_eq_self (b := 13)
    (by rw [List.getLast?_concat]; simp)]
  rw [rstripByte_concat_self, rstripByte_eq_self (b := 0)
    (by rw [getLast?_replicate_1024]; simp)]

theorem trimLine_c6_witness_input :
    trimLine (List.replicate 1025 97) = List.replicate 1025 97 := by
  unfold trimLine
  rw [rstripByte_eq_self (b := 13) (by rw [getLast?_replicate_1025]; simp),
    rstripByte_eq_self (b := 0) (by rw [getLast?_replicate_1025]; simp)]

/-- C6 counterexample: a received line of 1025 bytes pre-trim (1024 `a` bytes
followed by one NUL) trims to 1024 bytes, passes the length check, and is
answered by the engine — here an engine returning true, so the verdict is
"STRING EXISTS", not the rejection with "STRING NOT FOUND" the claim
requires for every line longer than 1024 bytes measured before trimming. -/
theorem c6_counterexample :
    (List.replicate 1024 97 ++ [0]).length > MAX_PAYLOAD_BYTES ∧
    processLines (fun (s : Unit) _ => (.ok true, s)) () [List.replicate 1024 97 ++ [0]] =
      ([Response.answer (List.replicate 1024 97) true], ()) ∧
    verdictOf (Response.answer (List.replicate 1024 97) true) = RESPONSE_EXISTS := by
  refine ⟨by simp [MAX_PAYLOAD_BYTES], ?_, rfl⟩
  rw [processLines_cons_answer _ _ _ _
    (by rw [trimLine_c6_input]; simp [MAX_PAYLOAD_BYTES])]
  rw [trimLine_c6_input]
  simp [processLines, resolveFound]

/-- C6 (amended): a received line whose length measured after trimming
(trailing `\r` bytes, then trailing NUL bytes) exceeds 1024 bytes is
rejected without invoking the search engine (the equation holds for every
engine behaviour `step`): its response is the rejection whose verdict line
is "STRING NOT FOUND", and the session goes on to process the remaining
lines. -/
theorem c6_max_length_post_trim {σ : Type} (step : σ → List Nat → Except EngineError Bool × σ)
    (s : σ) (raw : List Nat) (rest : List (List Nat))
    (h : (trimLine raw).length > MAX_PAYLOAD_BYTES) :
    processLines step s (raw :: rest) =
      (Response.tooLong :: (processLines step s rest).1, (processLines step s rest).2) ∧
    verdictOf Response.tooLong = RESPONSE_NOT_FOUND :=
  ⟨processLines_cons_long step s raw rest h, rfl⟩

theorem c6_max_length_post_trim_witness :
    processLines (fun (s : Unit) _ => (.ok true, s)) () [List.replicate 1025 97] =
      ([Response.tooLong], ()) ∧
    verdictOf Response.tooLong = RESPONSE_NOT_FOUND := by
  have h := c6_max_length_post_trim (fun (s : Unit) _ => (.ok true, s)) ()
    (List.replicate 1025 97) []
    (by rw [trimLine_c6_witness_input]; simp [MAX_PAYLOAD_BYTES])
  simpa [processLines] using h

/-- C7: when the engine raises an EngineError on a query, the session still
emits the two-line response with verdict "STRING NOT FOUND" and continues
with the remaining lines of the connection; at startup, by contrast, a
warmup failure in non-reread mode makes main exit via SystemExit with a
non-zero status (modelled as the error case of startupWarmup). -/
theorem c7_engine_error_handling :
    (∀ (σ : Type) (step : σ → List Nat → Except EngineError Bool × σ) (s s₁ : σ)
       (raw : List Nat) (rest : List (List Nat)) (er : EngineError),
      ¬ (trimLine raw).length > MAX_PAYLOAD_BYTES →
      step s (trimLine raw) = (.error er, s₁) →
      processLines step s (raw :: rest) =
        (Response.answer (trimLine raw) false :: (processLines step s₁ rest).1,
         (processLines step s₁ rest).2) ∧
      verdictOf (Response.answer (trimLine raw) false) = RESPONSE_NOT_FOUND) ∧
    (∀ (e : SearchEngine) (disk : Disk) (er : EngineError) (e' : SearchEngine),
      e.reread_on_query = false →
      warmupSt e disk = (.error er, e') →
      startupWarmup e disk = .error ("Engine error: " ++ er.message)) := by
  constructor
  · intro σ step s s₁ raw rest er h hstep
    refine ⟨?_, rfl⟩
    rw [processLines_cons_answer step s raw rest h, hstep]
    simp [resolveFound]
  · intro e disk er e' hmode hw
    simp [startupWarmup, hmode, hw]

theorem c7_engine_error_handling_witness :
    processLines (fun (s : Unit) _ => (.error .assertionFailed, s)) () [[97]] =
      ([Response.answer [97] false], ()) ∧
    startupWarmup ⟨false, "set_cache", none⟩ (.error "io") =
      .error ("Engine error: " ++ (EngineError.searchFailed "io").message) := by
  have h1 := c7_engine_error_handling.1 Unit (fun s _ => (.error .assertionFailed, s))
    () () [97] [] .assertionFailed (by decide) rfl
  have h2 := c7_engine_error_handling.2 ⟨false, "set_cache", none⟩ (.error "io")
    (.searchFailed "io") ⟨false, "set_cache", none⟩ rfl (by rfl)
  exact ⟨by simpa [processLines] using h1.1, h2⟩

/-- C8 counterexample: for the received line `b"a\r\x00\n"` the complete
line before trimming is `[97, 13, 0]`; the code strips trailing `\r` bytes
first and trailing NUL bytes second, so the query matched is `"a\r"`
(`[97, 13]`), not the fully trimmed `"a"` (`[97]`) that the claim's
"all trailing \r, \n, NUL in any trailing mixture are trimmed" requires. -/
theorem c8_counterexample :
    trimLine [97, 13, 0] = [97, 13] ∧ ([97, 13] : List Nat) ≠ [97] ∧
    processLines (fun (s : Unit) _ => (.ok false, s)) () [[97, 13, 0]] =
      ([Response.answer [97, 13] false], ()) := by
  exact ⟨by decide, by decide, by decide⟩

/-- C8 (amended): each complete line extracted from the receive buffer (the
buffer is split on `\n`, so extracted lines and the retained remainder never
contain `\n`, and concatenating them with `\n` restores the buffer) is
trimmed of its maximal trailing run of `\r` bytes and then of the maximal
trailing run of NUL bytes — in that order, so a `\r` run separated from the
end by a NUL survives — and the resulting bytes are matched as the query
with no further transformation. -/
theorem c8_trim_order (raw : List Nat) :
    (∃ i j, raw = trimLine raw ++ List.replicate j 0 ++ List.replicate i 13 ∧
      (trimLine raw).getLast? ≠ some 0 ∧
      (trimLine raw ++ List.replicate j 0).getLast? ≠ some 13) ∧
    (∀ (σ : Type) (step : σ → List Nat → Except EngineError Bool × σ) (s : σ)
       (rest : List (List Nat)),
      ¬ (trimLine raw).length > MAX_PAYLOAD_BYTES →
      processLines step s (raw :: rest) =
        (Response.answer (trimLine raw) (resolveFound (step s (trimLine raw)).1) ::
          (processLines step (step s (trimLine raw)).2 rest).1,
         (processLines step (step s (trimLine raw)).2 rest).2)) ∧
    (∀ buf : List Nat,
      ((extractLines buf).1.foldr (fun l acc => l ++ 10 :: acc) (extractLines buf).2 = buf) ∧
      (∀ l ∈ (extractLines buf).1, (10 : Nat) ∉ l)) :=
  ⟨trimLine_decomp raw,
   fun _ step s rest h => processLines_cons_answer step s raw rest h,
   fun buf => ⟨(extractLines_spec buf).1, (extractLines_spec buf).2.1⟩⟩

theorem c8_trim_order_witness :
    (∃ i j, ([97, 13, 0, 13] : List Nat) =
      trimLine [97, 13, 0, 13] ++ List.replicate j 0 ++ List.replicate i 13 ∧
      (trimLine [97, 13, 0, 13]).getLast? ≠ some 0 ∧
      (trimLine [97, 13, 0, 13] ++ List.replicate j 0).getLast? ≠ some 13) ∧
    processLines (fun (s : Unit) _ => (.ok false, s)) () [[97, 13, 0, 13]] =
      ([Response.answer (trimLine [97, 13, 0, 13]) false], ()) := by
  have h := c8_trim_order [97, 13, 0, 13]
  refine ⟨h.1, ?_⟩
  have h2 := h.2.1 Unit (fun s _ => (.ok false, s)) () [] (by decide)
  simpa [processLines, resolveFound] using h2

/-- C9: for a valid mode/algorithm pair, warmup builds and stores the set of
the file's lines for set_cache and the sorted list for sorted_bisect,
replacing whatever cache was stored before; for every reread-mode engine and
for the three non-cached algorithms it performs no read and leaves the cache
cleared; and when the reference file cannot be read while a cache is being
built it fails with an EngineError wrapping the underlying read failure,
mirroring SearchEngine.warmup. -/
theorem c9_warmup_behaviour (e : SearchEngine) (disk : Disk)
    (hok : validateCompatibility e = .ok ()) :
    (e.reread_on_query = true → warmupSt e disk = (.ok (), { e with cache := none })) ∧
    (e.reread_on_query = false → e.search_algo = "set_cache" → ∀ c, disk = .ok c →
      warmupSt e disk = (.ok (), { e with cache := some (.setC (build_set_cache c)) })) ∧
    (e.reread_on_query = false → e.search_algo = "sorted_bisect" → ∀ c, disk = .ok c →
      warmupSt e disk = (.ok (), { e with cache := some (.listC (build_sorted_list c)) })) ∧
    (e.reread_on_query = false → e.search_algo ∈ REREAD_ALGOS →
      warmupSt e disk = (.ok (), { e with cache := none })) ∧
    (e.reread_on_query = false → e.search_algo ∈ CACHED_ALGOS → ∀ msg, disk = .error msg →
      warmupSt e disk = (.error (.searchFailed msg), e)) := by
  refine ⟨?_, ?_, ?_, ?_, ?_⟩
  · intro hmode
    unfold warmupSt
    rw [hok, hmode]
    rfl
  · intro hmode halgo c hdisk
    unfold warmupSt
    rw [hok, hmode, halgo, hdisk]
    rfl
  · intro hmode halgo c hdisk
    unfold warmupSt
    rw [hok, hmode, halgo, hdisk]
    rfl
  · intro hmode halgo
    simp only [REREAD_ALGOS, List.mem_cons, List.not_mem_nil, or_false] at halgo
    unfold warmupSt
    rw [hok, hmode]
    rcases halgo with ha | ha | ha <;> rw [ha] <;> rfl
  · intro hmode halgo msg hdisk
    simp only [CACHED_ALGOS, List.mem_cons, List.not_mem_nil, or_false] at halgo
    unfold warmupSt
    rw [hok, hmode, hdisk]
    rcases halgo with ha | ha <;> rw [ha] <;> rfl

theorem c9_warmup_behaviour_witness :
    warmupSt ⟨false, "set_cache", some (.listC [])⟩ (.ok ['a', '\n', 'a', '\n']) =
      (.ok (), ⟨false, "set_cache",
        some (.setC (build_set_cache ['a', '\n', 'a', '\n']))⟩) ∧
    warmupSt ⟨true, "linear_scan", some (.setC [['a']])⟩ (.error "io") =
      (.ok (), ⟨true, "linear_scan", none⟩) := by
  constructor
  · exact (c9_warmup_behaviour ⟨false, "set_cache", some (.listC [])⟩
      (.ok ['a', '\n', 'a', '\n']) (by rfl)).2.1 rfl rfl ['a', '\n', 'a', '\n'] rfl
  · exact (c9_warmup_behaviour ⟨true, "linear_scan", some (.setC [['a']])⟩
      (.error "io") (by rfl)).1 rfl

/-- C10: a warmup call that fails with an engine error returns the engine
exactly as it was — in particular the previously stored cache is neither
cleared nor partially replaced, because in the source the failing build is
evaluated before the assignment to the cache field. -/
theorem c10_failed_warmup_preserves_cache (e : SearchEngine) (disk : Disk)
    (er : EngineError) (e' : SearchEngine)
    (h : warmupSt e disk = (.error er, e')) : e' = e ∧ e'.cache = e.cache := by
  suffices he : e' = e by exact ⟨he, by rw [he]⟩
  unfold warmupSt at h
  rcases hv : validateCompatibility e with erv | u
  · rw [hv] at h
    simp only [Prod.mk.injEq] at h
    exact h.2.symm
  · rw [hv] at h
    by_cases hr : e.reread_on_query
    · rw [if_pos hr] at h
      simp only [Prod.mk.injEq] at h
      cases h.1
    · rw [if_neg hr] at h
      by_cases hs : e.search_algo = "set_cache"
      · rw [if_pos hs] at h
        cases disk with
        | ok c =>
          simp only [Prod.mk.injEq] at h
          cases h.1
        | error msg =>
          simp only [Prod.mk.injEq] at h
          exact h.2.symm
      · rw [if_neg hs] at h
        by_cases hb : e.search_algo = "sorted_bisect"
        · rw [if_pos hb] at h
          cases disk with
          | ok c =>
            simp only [Prod.mk.injEq] at h
            cases h.1
          | error msg =>
            simp only [Prod.mk.injEq] at h
            exact h.2.symm
        · rw [if_neg hb] at h
          simp only [Prod.mk.injEq] at h
          cases h.1

theorem c10_failed_warmup_preserves_cache_witness :
    (warmupSt ⟨false, "set_cache", some (.setC [['x']])⟩ (.error "io")).2 =
      ⟨false, "set_cache", some (.setC [['x']])⟩ ∧
    (warmupSt ⟨false, "set_cache", some (.setC [['x']])⟩ (.error "io")).2.cache =
      some (CacheType.setC [['x']]) := by
  have hW : warmupSt ⟨false, "set_cache", some (.setC [['x']])⟩ (.error "io") =
      (.error (.searchFailed "io"),
        (warmupSt ⟨false, "set_cache", some (.setC [['x']])⟩ (.error "io")).2) := by rfl
  have h := c10_failed_warmup_preserves_cache _ _ _ _ hW
  exact ⟨h.1, by rw [h.1]⟩
